import Mathlib

/-!
Verification of the keyed LSB steganography codec of the INF2005-G8-ACW1
repository against its natural-language specification.

Embedding conventions:
* Python `str` values (keys, file names) are embedded as lists of byte values
  (`List Nat`), i.e. the UTF-8 bytes of the string.  All concrete strings used
  below are ASCII, where Python's `str.strip`/`str.lower`/`os.path.basename`
  agree with the byte-level operations defined here.
* Python `int` is embedded as `Nat`/`Int`; Python `bytes`/`bytearray` as
  `List Nat` with entries below 256.
* `hashlib.sha256` is embedded concretely as `sha256` below (validated against
  the FIPS 180-4 test vectors).
* `random.Random(seed).shuffle(lst)` (the Mersenne-Twister shuffle used by
  `_scattered_positions`) is embedded as an explicit function parameter
  `shuffle : Nat → List Nat → List Nat`; the Python library guarantees that
  the shuffled list is a permutation of the input, which appears below as the
  hypothesis `∀ s l, (shuffle s l).Perm l`.
* Python exceptions are embedded as error values of explicit result types.
-/

set_option maxRecDepth 1000000

namespace ACW1

/-! ### Generic byte/bit helpers -/

/-- Little-endian value of a byte list, Python `int.from_bytes(l, "little")`. -/
def fromBytesLE (l : List Nat) : Nat := l.foldr (fun b acc => b + 256 * acc) 0

/-- Big-endian value of a byte list, Python `int.from_bytes(l, "big")`. -/
def fromBytesBE (l : List Nat) : Nat := l.foldl (fun acc b => 256 * acc + b) 0

/-- Little-endian encoding, Python `x.to_bytes(n, "little")`. -/
def toBytesLE : Nat → Nat → List Nat
  | 0, _ => []
  | n+1, x => x % 256 :: toBytesLE n (x / 256)

/-- Big-endian encoding, Python `x.to_bytes(n, "big")`. -/
def toBytesBE (n x : Nat) : List Nat := (toBytesLE n x).reverse

/-- ASCII whitespace bytes stripped by Python `str.strip()`. -/
def isSpaceByte (b : Nat) : Bool := b == 32 || b == 9 || b == 10 || b == 13 || b == 11 || b == 12

/-- Python `s.strip()` at the byte level: drop ASCII whitespace from both ends. -/
def trimBytes (l : List Nat) : List Nat :=
  ((l.dropWhile isSpaceByte).reverse.dropWhile isSpaceByte).reverse

/-- Python `s.lower()` for ASCII bytes. -/
def lowerByte (b : Nat) : Nat := if 65 ≤ b ∧ b ≤ 90 then b + 32 else b

/-- Python `os.path.basename` at the byte level: the part after the last `'/'` (byte 47). -/
def basenameBytes (l : List Nat) : List Nat :=
  (l.reverse.takeWhile (fun c => c ≠ 47)).reverse

/-- Decimal digit bytes of a natural number (used for Python f-string interpolation
of integers); the first argument is recursion fuel, `n + 1` always suffices. -/
def decDigitsGo : Nat → Nat → List Nat
  | 0, _ => []
  | fuel+1, n => if n < 10 then [48 + n] else decDigitsGo fuel (n / 10) ++ [48 + n % 10]

/-- Decimal byte rendering of a natural number, Python `str(n)` for `n ≥ 0`. -/
def decDigits (n : Nat) : List Nat := decDigitsGo (n + 1) n

/-! ### SHA-256 (models Python `hashlib.sha256(...).digest()`)

The implementation below is plain FIPS 180-4 SHA-256 over byte lists; it was
validated against the standard test vectors (`"abc"`, the empty string, and a
two-block input). -/

/-- Truncation to a 32-bit word. -/
def w32 (x : Nat) : Nat := x % 4294967296

/-- Right rotation of a 32-bit word. -/
def rotr (n x : Nat) : Nat := w32 ((x >>> n) ||| (x <<< (32 - n)))

/-- SHA-256 round constants (fractional parts of cube roots of the first 64 primes). -/
def shaK : List Nat :=
  [1116352408, 1899447441, 3049323471, 3921009573, 961987163, 1508970993, 2453635748,
   2870763221, 3624381080, 310598401, 607225278, 1426881987, 1925078388, 2162078206,
   2614888103, 3248222580, 3835390401, 4022224774, 264347078, 604807628, 770255983,
   1249150122, 1555081692, 1996064986, 2554220882, 2821834349, 2952996808, 3210313671,
   3336571891, 3584528711, 113926993, 338241895, 666307205, 773529912, 1294757372,
   1396182291, 1695183700, 1986661051, 2177026350, 2456956037, 2730485921, 2820302411,
   3259730800, 3345764771, 3516065817, 3600352804, 4094571909, 275423344, 430227734,
   506948616, 659060556, 883997877, 958139571, 1322822218, 1537002063, 1747873779,
   1955562222, 2024104815, 2227730452, 2361852424, 2428436474, 2756734187, 3204031479,
   3329325298]

/-- SHA-256 initial hash state. -/
def shaH0 : List Nat :=
  [1779033703, 3144134277, 1013904242, 2773480762, 1359893119, 2600822924, 528734635,
   1541459225]

/-- SHA-256 message-schedule function σ₀. -/
def smallSigma0 (x : Nat) : Nat := rotr 7 x ^^^ rotr 18 x ^^^ (x >>> 3)

/-- SHA-256 message-schedule function σ₁. -/
def smallSigma1 (x : Nat) : Nat := rotr 17 x ^^^ rotr 19 x ^^^ (x >>> 10)

/-- Group a byte list into big-endian 32-bit words. -/
def toWordsBE : List Nat → List Nat
  | a :: b :: c :: d :: rest => (((a * 256 + b) * 256 + c) * 256 + d) :: toWordsBE rest
  | _ => []

/-- Extend the 16-word message schedule by the given number of words. -/
def extendW : List Nat → Nat → List Nat
  | ws, 0 => ws
  | ws, n+1 =>
      extendW (ws ++ [w32 (smallSigma1 (ws.getD (ws.length - 2) 0) + ws.getD (ws.length - 7) 0 +
        smallSigma0 (ws.getD (ws.length - 15) 0) + ws.getD (ws.length - 16) 0)]) n

/-- One SHA-256 compression round on an 8-word state. -/
def shaRound (wd kc : Nat) (st : List Nat) : List Nat :=
  match st with
  | [a, b, c, d, e, f, g, hh] =>
      let s1 := rotr 6 e ^^^ rotr 11 e ^^^ rotr 25 e
      let ch := (e &&& f) ^^^ ((e ^^^ 4294967295) &&& g)
      let t1 := w32 (hh + s1 + ch + kc + wd)
      let s0 := rotr 2 a ^^^ rotr 13 a ^^^ rotr 22 a
      let mj := (a &&& b) ^^^ (a &&& c) ^^^ (b &&& c)
      let t2 := w32 (s0 + mj)
      [w32 (t1 + t2), a, b, c, w32 (d + t1), e, f, g]
  | other => other

/-- SHA-256 compression of one 64-byte block. -/
def compressBlock (H block : List Nat) : List Nat :=
  let ws := extendW (toWordsBE block) 48
  let fin := (List.range 64).foldl (fun st i => shaRound (ws.getD i 0) (shaK.getD i 0) st) H
  List.zipWith (fun x y => w32 (x + y)) H fin

/-- Fold the compression function over consecutive 64-byte blocks; the first
argument is recursion fuel (the padded length always suffices). -/
def shaBlocksGo : Nat → List Nat → List Nat → List Nat
  | _, H, [] => H
  | 0, H, _ => H
  | fuel+1, H, l => shaBlocksGo fuel (compressBlock H (l.take 64)) (l.drop 64)

/-- SHA-256 padding: append `0x80`, zeros to 56 mod 64, and the 64-bit big-endian bit length. -/
def shaPad (msg : List Nat) : List Nat :=
  let z := (55 + 64 - msg.length % 64) % 64
  msg ++ [128] ++ List.replicate z 0 ++ toBytesBE 8 (8 * msg.length)

/-- SHA-256 digest of a byte list; models Python `hashlib.sha256(msg).digest()`. -/
def sha256 (msg : List Nat) : List Nat :=
  let padded := shaPad msg
  (shaBlocksGo padded.length shaH0 padded).flatMap (fun wrd => toBytesBE 4 wrd)

/-! ### `flaskr/modules/key_manager.py` -/

/-- Key normalization, `_normalize_key_str` (key_manager.py line 5): `str(key).strip().lower()`. -/
def _normalize_key_str (key : List Nat) : List Nat := (trimBytes key).map lowerByte

/-- Python `c.isdigit()` for an ASCII byte. -/
def isDigitByte (b : Nat) : Bool := 48 ≤ b && b ≤ 57

/-- Decimal value of a digit-byte list. -/
def digitsVal (l : List Nat) : Nat := l.foldl (fun a d => 10 * a + (d - 48)) 0

/-- Hash branch of `key_to_int`: `int.from_bytes(sha256(s).digest()[:8], 'big')`. -/
def keyHashInt (s : List Nat) : Int := (fromBytesBE ((sha256 s).take 8) : Nat)

/-- Key derivation `key_to_int` (key_manager.py lines 8-24).  The numeric fast
path mirrors `if s.lstrip('-').isdigit(): try: return int(s) except: pass`
(`int(s)` succeeds exactly when `s` has at most one leading `'-'`). -/
def key_to_int (key : List Nat) : Int :=
  let s := _normalize_key_str key
  if s = [] then 0
  else
    let t := s.dropWhile (fun b => b == 45)
    if t ≠ [] ∧ t.all isDigitByte then
      if s.head? = some 45 then
        if s.length = t.length + 1 then -(digitsVal t : Int) else keyHashInt s
      else (digitsVal s : Int)
    else keyHashInt s

/-- Body of the `while gcd(stride, total) != 1` loop of `_stride_for`
(key_manager.py lines 87-91), with explicit fuel; fuel `total` always
suffices because the loop reaches either a coprime stride or `total - 1`
(which is always coprime with `total`). -/
def strideLoop (total : Nat) : Nat → Nat → Nat
  | 0, stride => stride
  | fuel+1, stride =>
      if Nat.gcd stride total = 1 then stride
      else strideLoop total fuel (if stride + 1 ≥ total then 1 else stride + 1)

/-- Stride derivation `_stride_for` (key_manager.py lines 79-92). -/
def _stride_for (total : Nat) (key_int : Int) : Nat :=
  if total ≤ 1 then 1
  else strideLoop total total (1 + key_int.natAbs % max 1 (total - 1))

/-- The `for _ in range(count)` loop of `get_embedding_positions`
(key_manager.py lines 113-117): collect `count` indices, stepping by
`stride` modulo `total`. -/
def positionsLoop (total stride : Nat) : Nat → Nat → List Nat
  | _, 0 => []
  | idx, n+1 => idx :: positionsLoop total stride ((idx + stride) % total) n

/-- Strided position generator `get_embedding_positions` (key_manager.py
lines 94-118).  `lsb_count` is unused by the algorithm (kept for signature
parity, as in the source). -/
def get_embedding_positions (key : List Nat) (data_length cover_size : Nat)
    (lsb_count : Nat) (start_location : Nat) : List Nat :=
  let total := cover_size
  let count := data_length
  let start := start_location % max 1 total
  let key_int := key_to_int key
  let count := if count > total then total else count
  let stride := _stride_for total key_int
  positionsLoop total stride start count

/-! ### `flaskr/modules/image_stego.py` -/

/-- The magic marker `b"ACW1"` (image_stego.py line 125). -/
def MAGIC : List Nat := [65, 67, 87, 49]

/-- The fallback name `"payload.bin"` as bytes. -/
def PAYLOAD_BIN : List Nat := [112, 97, 121, 108, 111, 97, 100, 46, 98, 105, 110]

/-- Name sanitation `_safe_name` (image_stego.py lines 8-9):
`os.path.basename(name).strip() or "payload.bin"`. -/
def _safe_name (name : List Nat) : List Nat :=
  let b := trimBytes (basenameBytes name)
  if b = [] then PAYLOAD_BIN else b

/-- Key signature `hashlib.sha256(str(key).encode()).digest()[:4]`
(image_stego.py line 127; the identical expression is recomputed on the
decode path at line 218). -/
def key_sig (key : List Nat) : List Nat := (sha256 key).take 4

/-- Modelled from the spec: `iter_bits_lsb` is imported from `.utils` in
image_stego.py line 6 but absent from the source tree.  Per spec §4.3 the
frame byte stream is flattened LSB-first: each byte yields its bits from bit
0 to bit 7. -/
def iter_bits_lsb (data : List Nat) : List Bool :=
  data.flatMap (fun b => (List.range 8).map (fun i => ((b >>> i) &&& 1) == 1))

/-- Value of one 8-bit group, first bit at bit 0 (LSB-first). -/
def byteOf (l : List Bool) : Nat := l.foldr (fun b acc => b.toNat + 2 * acc) 0

/-- Fuel-driven worker for `pack_bits_lsb`; fuel `bits.length` suffices. -/
def packGo : Nat → List Bool → List Nat
  | 0, _ => []
  | _, [] => []
  | fuel+1, bits => byteOf (bits.take 8) :: packGo fuel (bits.drop 8)

/-- Modelled from the spec: `pack_bits_lsb` is imported from `.utils` in
image_stego.py line 6 but absent from the source tree.  Per spec §4.3 it
packs a bit stream into bytes LSB-first (inverse of `iter_bits_lsb`); the
decoder only ever applies it to whole multiples of 8 bits. -/
def pack_bits_lsb (bits : List Bool) : List Nat := packGo bits.length bits

/-- The seed string `f"ACW1|IMG|{w}x{h}|{key}"` of `_scattered_positions`
(image_stego.py line 92), as UTF-8 bytes (`"ACW1|IMG|"` is
`[65,67,87,49,124,73,77,71,124]`, `'x'` is 120, `'|'` is 124). -/
def seedBytes (w h : Nat) (key : List Nat) : List Nat :=
  [65, 67, 87, 49, 124, 73, 77, 71, 124] ++ decDigits w ++ [120] ++ decDigits h ++ [124] ++ key

/-- Scattered suffix position generator `_scattered_positions`
(image_stego.py lines 70-106).  `shuffle` stands for
`random.Random(seed).shuffle` (see the module docstring); the Python loop
that extends `out` by pixel triples and breaks once `max_needed` entries
exist is equivalently written as `flatMap` followed by `take max_needed`. -/
def _scattered_positions (shuffle : Nat → List Nat → List Nat)
    (total_carriers start : Nat) (key : List Nat) (w h : Nat) : List Nat :=
  if total_carriers = 0 then []
  else
    let n_pixels := w * h
    if n_pixels = 0 then []
    else
      let start_pixel := start / 3
      if n_pixels ≤ start_pixel then []
      else
        let eligible_pixels := List.range' start_pixel (n_pixels - start_pixel)
        let seed := fromBytesLE ((sha256 (seedBytes w h key)).take 8)
        let shuffled := shuffle seed eligible_pixels
        let max_needed := total_carriers - start_pixel * 3
        (shuffled.flatMap (fun p => [3 * p, 3 * p + 1, 3 * p + 2])).take max_needed

/-- Clearing the low `k` bits: Python `c & ~mask` with `mask = (1 << k) - 1`
on a nonnegative `c` (image_stego.py line 154). -/
def clearLow (k c : Nat) : Nat := (c >>> k) <<< k

/-- Value of one `k`-bit group as packed by the encoder's inner loop
`val = (val << 1) | next(bits)` (image_stego.py lines 151-153): the first
stream bit ends up in the highest-order position of the group. -/
def groupVal (bits : List Bool) : Nat := bits.foldl (fun v b => 2 * v + b.toNat) 0

/-- The embedding loop `for idx in positions` of `encode_image`
(image_stego.py lines 149-156): write one `k`-bit group per position; if the
bit iterator is exhausted before a full group is read, `StopIteration` hits
the `try` block before the write and the loop `break`s, so a final partial
group is dropped without being written. -/
def embed (k : Nat) : List Nat → List Bool → List Nat → List Nat
  | [], _, carrier => carrier
  | idx :: rest, bits, carrier =>
      if bits.length < k then carrier
      else embed k rest (bits.drop k)
        (carrier.set idx (clearLow k (carrier.getD idx 0) ||| groupVal (bits.take k)))

/-- Bits of one slot as produced by the decoder's `bit_stream` generator
(image_stego.py lines 203-207): `for j in reversed(range(k)): yield (v >> j) & 1`. -/
def slotBits (k v : Nat) : List Bool :=
  ((List.range k).reverse).map (fun j => ((v >>> j) &&& 1) == 1)

/-- The flattened bit stream read by `decode_image.bit_stream`
(image_stego.py lines 203-207): for each position, the low `k` bits of the
carrier byte, most significant of the group first. -/
def readStream (k : Nat) (positions data : List Nat) : List Bool :=
  positions.flatMap (fun idx => slotBits k (data.getD idx 0 &&& (2 ^ k - 1)))

/-- The frame blob built by `encode_image` (image_stego.py lines 125-132):
`MAGIC + key_sig + name_len(2,LE) + payload_len(4,LE) + name_bytes` followed
by the payload. -/
def encode_blob (payload_path payload key : List Nat) : List Nat :=
  let name_bytes := (_safe_name payload_path).take 65535
  MAGIC ++ key_sig key ++ toBytesLE 2 name_bytes.length ++ toBytesLE 4 payload.length ++
    name_bytes ++ payload

/-- Slot count `carriers_needed = (total_bits + k - 1) // k` with
`total_bits = len(blob) * 8` (image_stego.py lines 134-135). -/
def carriers_needed (k : Nat) (blob : List Nat) : Nat := (blob.length * 8 + k - 1) / k

/-- Errors raised by `encode_image`. -/
inductive EncErr where
  | invalidBitDepth : EncErr
  | payloadTooLarge (needBytes availBytes : Nat) : EncErr
deriving DecidableEq, Repr

/-- Result of `encode_image`: the mutated carrier, or an error. -/
inductive EncodeResult where
  | ok (carrier : List Nat) : EncodeResult
  | err (e : EncErr) : EncodeResult
deriving DecidableEq, Repr

/-- Whether an encode succeeded. -/
def EncodeResult.isOk : EncodeResult → Bool
  | .ok _ => true
  | .err _ => false

/-- Errors raised by `decode_image`.  `streamExhausted` models the Python
`RuntimeError` that PEP 479 raises when `next(bits)` hits the end of the
position stream inside a generator expression. -/
inductive DecErr where
  | invalidBitDepth : DecErr
  | notAStego : DecErr
  | wrongKey : DecErr
  | corruptHeader : DecErr
  | streamExhausted : DecErr
deriving DecidableEq, Repr

/-- Result of `decode_image`: recovered payload bytes and file name, or an error. -/
inductive DecodeResult where
  | ok (payload fname : List Nat) : DecodeResult
  | err (e : DecErr) : DecodeResult
deriving DecidableEq, Repr

/-- The body of `encode_image` (image_stego.py lines 108-156) with the start
byte offset as an explicit parameter (in the source, `start` is computed from
the parsed `(x, y)` start location just before this code runs).  The carrier
is the flat RGB byte buffer `bytearray(cover_img.tobytes())`; `payload_path`
only contributes the sanitized payload name; saving the stego file is I/O
outside the codec. -/
def encode_image_at (shuffle : Nat → List Nat → List Nat) (w h : Nat)
    (carrier : List Nat) (payload_path payload key : List Nat)
    (k : Nat) (start : Nat) : EncodeResult :=
  if ¬(1 ≤ k ∧ k ≤ 8) then .err .invalidBitDepth
  else
    let blob := encode_blob payload_path payload key
    let positions_full := _scattered_positions shuffle carrier.length start key w h
    let available_from_start := positions_full.length * k / 8
    if carriers_needed k blob > positions_full.length then
      .err (.payloadTooLarge blob.length available_from_start)
    else
      .ok (embed k (positions_full.take (carriers_needed k blob)) (iter_bits_lsb blob) carrier)

/-- Clamping of a start coordinate, `max(0, min(hi - 1, v))` over Python ints
(`_parse_start_xy`, image_stego.py lines 55-56). -/
def clampCoord (hi : Nat) (v : Int) : Nat := (max 0 (min ((hi : Int) - 1) v)).toNat

/-- Start byte offset `(y * w + x) * 3` from clamped pixel coordinates
(image_stego.py lines 119-120). -/
def startXY (w h : Nat) (x y : Int) : Nat := 3 * (clampCoord h y * w + clampCoord w x)

/-- `encode_image` (image_stego.py lines 108-182) with the start location
given as the already-split `(x, y)` pair of `_parse_start_xy`. -/
def encode_image (shuffle : Nat → List Nat → List Nat) (w h : Nat)
    (carrier : List Nat) (payload_path payload key : List Nat)
    (k : Nat) (x y : Int) : EncodeResult :=
  encode_image_at shuffle w h carrier payload_path payload key k (startXY w h x y)

/-- The header/payload parsing phase of `decode_image` (image_stego.py lines
209-235), operating on the flattened bit stream.  Each Python
`pack_bits_lsb((next(bits) for _ in range(n)))` reads `n` bits from the
shared generator; exhaustion raises (modelled by `streamExhausted`).  The
filename post-processing at lines 230-233 is
`os.path.basename(...).strip() or "payload.bin"`, i.e. `_safe_name`. -/
def parseStream (key : List Nat) (stream : List Bool) : DecodeResult :=
  if stream.length < 32 then .err .streamExhausted
  else
    let magic := pack_bits_lsb (stream.take 32)
    if magic.take 4 ≠ MAGIC then .err .notAStego
    else
      let s1 := stream.drop 32
      if s1.length < 32 then .err .streamExhausted
      else
        let sig := pack_bits_lsb (s1.take 32)
        if sig.take 4 ≠ key_sig key then .err .wrongKey
        else
          let s2 := s1.drop 32
          if s2.length < 48 then .err .streamExhausted
          else
            let hdr := pack_bits_lsb (s2.take 48)
            let name_len := fromBytesLE (hdr.take 2)
            let payload_len := fromBytesLE ((hdr.drop 2).take 4)
            if ¬(name_len ≤ 65535) then .err .corruptHeader
            else
              let s3 := s2.drop 48
              if s3.length < name_len * 8 then .err .streamExhausted
              else
                let name_bytes := (pack_bits_lsb (s3.take (name_len * 8))).take name_len
                let fname := _safe_name name_bytes
                let s4 := s3.drop (name_len * 8)
                if s4.length < payload_len * 8 then .err .streamExhausted
                else
                  .ok ((pack_bits_lsb (s4.take (payload_len * 8))).take payload_len) fname

/-- The body of `decode_image` (image_stego.py lines 184-241) with the start
byte offset as an explicit parameter. -/
def decode_image_at (shuffle : Nat → List Nat → List Nat) (w h : Nat)
    (data key : List Nat) (k : Nat) (start : Nat) : DecodeResult :=
  if ¬(1 ≤ k ∧ k ≤ 8) then .err .invalidBitDepth
  else
    let positions := _scattered_positions shuffle data.length start key w h
    parseStream key (readStream k positions data)

/-- `decode_image` (image_stego.py lines 184-241) with the start location
given as the already-split `(x, y)` pair of `_parse_start_xy`. -/
def decode_image (shuffle : Nat → List Nat → List Nat) (w h : Nat)
    (data key : List Nat) (k : Nat) (x y : Int) : DecodeResult :=
  decode_image_at shuffle w h data key k (startXY w h x y)

/-- Second definition written from the spec's words (§4.3, C4), for
comparison with the code's `groupVal`: a `k`-bit group packed LSB-first puts
the first stream bit at bit 0. -/
def spec_group_val_lsb (bits : List Bool) : Nat :=
  (bits.zipWith (fun b i => b.toNat * 2 ^ i) (List.range bits.length)).sum

/-! ### Lemmas about the strided position generator (`get_embedding_positions`) -/

theorem positionsLoop_length (total stride : Nat) :
    ∀ (n idx : Nat), (positionsLoop total stride idx n).length = n := by
  intro n
  induction n with
  | zero => intro idx; rfl
  | succ m ih => intro idx; simp [positionsLoop, ih]

theorem positionsLoop_eq_map (total stride : Nat) :
    ∀ (n j : Nat), positionsLoop total stride (j % total) n =
      (List.range n).map (fun i => (j + i * stride) % total) := by
  intro n
  induction n with
  | zero => intro j; rfl
  | succ m ih =>
    intro j
    have hstep : (j % total + stride) % total = (j + stride) % total := Nat.mod_add_mod j total stride
    calc positionsLoop total stride (j % total) (m + 1)
        = j % total :: positionsLoop total stride ((j % total + stride) % total) m := rfl
      _ = j % total :: positionsLoop total stride ((j + stride) % total) m := by rw [hstep]
      _ = j % total :: (List.range m).map (fun i => (j + stride + i * stride) % total) := by
          rw [ih (j + stride)]
      _ = (List.range (m + 1)).map (fun i => (j + i * stride) % total) := by
          rw [List.range_succ_eq_map, List.map_cons, List.map_map]
          refine congrArg₂ List.cons (by simp) ?_
          apply List.map_congr_left
          intro i _
          simp only [Function.comp_apply]
          have hrw : j + stride + i * stride = j + (i + 1) * stride := by ring
          rw [hrw]

theorem strideLoop_gcd (total : Nat) (htotal : 1 < total) :
    ∀ (fuel s : Nat), 1 ≤ s → s < total → total - s ≤ fuel →
      Nat.gcd (strideLoop total fuel s) total = 1 := by
  intro fuel
  induction fuel with
  | zero => intro s h1 h2 h3; omega
  | succ f ih =>
    intro s h1 h2 h3
    by_cases hg : Nat.gcd s total = 1
    · simp [strideLoop, hg]
    · have hlt : s + 1 < total := by
        rcases Nat.lt_or_ge (s + 1) total with h | h
        · exact h
        · exfalso
          have hs : s = total - 1 := by omega
          have : Nat.gcd s total = 1 := by
            subst hs
            have h2' : total - 1 + 1 = total := by omega
            calc Nat.gcd (total - 1) total
                = Nat.gcd (total - 1) (total - 1 + 1) := by rw [h2']
              _ = 1 := by simp
          exact hg this
      have : (if s + 1 ≥ total then 1 else s + 1) = s + 1 := by
        rw [if_neg]; omega
      simp only [strideLoop, if_neg hg, this]
      exact ih (s + 1) (by omega) hlt (by omega)

theorem stride_for_coprime (total : Nat) (key_int : Int) (htotal : 1 < total) :
    Nat.gcd (_stride_for total key_int) total = 1 := by
  have hne : ¬ total ≤ 1 := by omega
  rw [_stride_for, if_neg hne]
  have hmax : max 1 (total - 1) = total - 1 := by omega
  set s0 := 1 + key_int.natAbs % max 1 (total - 1) with hs0
  have hub : key_int.natAbs % max 1 (total - 1) < total - 1 := by
    rw [hmax]; exact Nat.mod_lt _ (by omega)
  exact strideLoop_gcd total htotal total s0 (by omega) (by omega) (by omega)

theorem stride_strided_inj (T D s : Nat) (hT : 0 < T) (hco : Nat.gcd D T = 1) :
    ∀ i j, i < T → j < T → (s + i * D) % T = (s + j * D) % T → i = j := by
  intro i j hi hj hEq
  have h1 : s + i * D ≡ s + j * D [MOD T] := hEq
  have h2 : i * D ≡ j * D [MOD T] := Nat.ModEq.add_left_cancel' s h1
  have hco' : Nat.gcd T D = 1 := by rwa [Nat.gcd_comm] at hco
  have h3 : i ≡ j [MOD T] := Nat.ModEq.cancel_right_of_coprime hco' h2
  have : i % T = j % T := h3
  rwa [Nat.mod_eq_of_lt hi, Nat.mod_eq_of_lt hj] at this

theorem stride_strided_surj (T D s : Nat) (hT : 0 < T) (hco : Nat.gcd D T = 1) :
    ∀ x, x < T → ∃ i, i < T ∧ (s + i * D) % T = x := by
  have : Nonempty (Fin T) := ⟨⟨0, hT⟩⟩
  let f : Fin T → Fin T := fun i => ⟨(s + i.val * D) % T, Nat.mod_lt _ hT⟩
  have hinj : Function.Injective f := by
    intro a b hab
    have := congrArg Fin.val hab
    exact Fin.ext (stride_strided_inj T D s hT hco a.val b.val a.isLt b.isLt this)
  have hsurj : Function.Surjective f := Finite.injective_iff_surjective.mp hinj
  intro x hx
  obtain ⟨i, hi⟩ := hsurj ⟨x, hx⟩
  exact ⟨i.val, i.isLt, congrArg Fin.val hi⟩

/-- Claim C3: for every slot count `T > 1` and every key-derived seed, the
stride chosen by `_stride_for` is coprime with `T`, and the `T`-entry strided
sequence produced by `get_embedding_positions` from any start visits all `T`
indices exactly once (no index repeats, every index occurs). -/
theorem stride_walk_complete (key : List Nat) (T lsb start : Nat) (hT : 1 < T) :
    Nat.gcd (_stride_for T (key_to_int key)) T = 1 ∧
    (get_embedding_positions key T T lsb start).Nodup ∧
    (∀ x, x < T → x ∈ get_embedding_positions key T T lsb start) := by
  have hT0 : 0 < T := by omega
  have hco := stride_for_coprime T (key_to_int key) hT
  have hmax : max 1 T = T := by omega
  have hcount : ¬ T > T := by omega
  have hout : get_embedding_positions key T T lsb start =
      (List.range T).map (fun i => (start + i * _stride_for T (key_to_int key)) % T) := by
    simp only [get_embedding_positions, hmax, if_neg hcount]
    exact positionsLoop_eq_map T _ T start
  refine ⟨hco, ?_, ?_⟩
  · rw [hout]
    exact List.Nodup.map_on
      (fun i hi j hj hEq => stride_strided_inj T _ start hT0 hco i j
        (List.mem_range.mp hi) (List.mem_range.mp hj) hEq)
      (List.nodup_range T)
  · intro x hx
    rw [hout]
    obtain ⟨i, hiT, hival⟩ := stride_strided_surj T _ start hT0 hco x hx
    exact List.mem_map.mpr ⟨i, List.mem_range.mpr hiT, hival⟩

/-- Witness for C3 at `key = "7"`, `T = 5`, `start = 3`. -/
theorem stride_walk_complete_witness :
    Nat.gcd (_stride_for 5 (key_to_int [55])) 5 = 1 ∧
    (get_embedding_positions [55] 5 5 1 3).Nodup ∧
    (∀ x, x < 5 → x ∈ get_embedding_positions [55] 5 5 1 3) :=
  stride_walk_complete [55] 5 1 3 (by decide)

/-- Claim C10: when the requested number of positions exceeds the carrier
size, `get_embedding_positions` raises no error; it silently clamps the
request (the result coincides with asking for exactly `cover_size`
positions) and returns exactly `min data_length cover_size` indices. -/
theorem get_positions_clamps (key : List Nat) (data_length cover_size lsb start : Nat)
    (hpos : 0 < cover_size) (hgt : cover_size < data_length) :
    (get_embedding_positions key data_length cover_size lsb start).length =
      min data_length cover_size ∧
    get_embedding_positions key data_length cover_size lsb start =
      get_embedding_positions key cover_size cover_size lsb start := by
  have h1 : data_length > cover_size := hgt
  have h2 : ¬ cover_size > cover_size := by omega
  constructor
  · simp only [get_embedding_positions, if_pos h1]
    rw [positionsLoop_length]
    omega
  · simp only [get_embedding_positions, if_pos h1, if_neg h2]

/-- Witness for C10 at `key = "7"`, `data_length = 7 > 5 = cover_size`. -/
theorem get_positions_clamps_witness :
    (get_embedding_positions [55] 7 5 1 0).length = min 7 5 ∧
    get_embedding_positions [55] 7 5 1 0 = get_embedding_positions [55] 5 5 1 0 :=
  get_positions_clamps [55] 7 5 1 0 (by decide) (by decide)

/-! ### Lemmas about the bit-level codec -/

/-- LSB-first bits of a value, clean form of one byte of `iter_bits_lsb`. -/
def bitsLSB (k v : Nat) : List Bool := (List.range k).map (fun i => ((v >>> i) &&& 1) == 1)

theorem byteOf_aux (init : Nat) :
    ∀ (l : List Bool), l.foldr (fun b acc => b.toNat + 2 * acc) init =
      byteOf l + init * 2 ^ l.length := by
  intro l
  induction l with
  | nil => simp [byteOf]
  | cons c l ih =>
    simp only [List.foldr_cons, ih, byteOf, List.length_cons]
    ring

theorem byteOf_cons (b : Bool) (l : List Bool) :
    byteOf (b :: l) = b.toNat + 2 * byteOf l := rfl

theorem byteOf_lt : ∀ (l : List Bool), byteOf l < 2 ^ l.length := by
  intro l
  induction l with
  | nil => simp [byteOf]
  | cons b l ih =>
    rw [byteOf_cons]
    have hb : b.toNat ≤ 1 := Bool.toNat_le b
    simp only [List.length_cons, pow_succ]
    omega

theorem byteOf_append (l : List Bool) (b : Bool) :
    byteOf (l ++ [b]) = byteOf l + b.toNat * 2 ^ l.length := by
  simp only [byteOf, List.foldr_append, List.foldr_cons, List.foldr_nil]
  have := byteOf_aux (b.toNat + 2 * 0) l
  simpa [byteOf] using this

theorem groupVal_aux (l : List Bool) :
    ∀ (acc : Nat), l.foldl (fun v b => 2 * v + b.toNat) acc =
      acc * 2 ^ l.length + groupVal l := by
  induction l with
  | nil => intro acc; simp [groupVal]
  | cons c l ih =>
    intro acc
    have h1 : groupVal (c :: l) = c.toNat * 2 ^ l.length + groupVal l := by
      simp only [groupVal, List.foldl_cons]
      rw [show 2 * 0 + c.toNat = c.toNat by omega]
      have := ih c.toNat
      simpa [groupVal] using this
    simp only [List.foldl_cons, ih (2 * acc + c.toNat), h1, List.length_cons]
    ring

theorem groupVal_cons (b : Bool) (l : List Bool) :
    groupVal (b :: l) = b.toNat * 2 ^ l.length + groupVal l := by
  simp only [groupVal, List.foldl_cons]
  rw [show 2 * 0 + b.toNat = b.toNat by omega]
  have := groupVal_aux l b.toNat
  simpa [groupVal] using this

theorem groupVal_lt : ∀ (l : List Bool), groupVal l < 2 ^ l.length := by
  intro l
  induction l with
  | nil => simp [groupVal]
  | cons b l ih =>
    rw [groupVal_cons]
    simp only [List.length_cons, pow_succ]
    cases b <;> simp only [Bool.toNat_true, Bool.toNat_false, one_mul, zero_mul, zero_add] <;> omega

theorem groupVal_eq_byteOf_reverse : ∀ (l : List Bool), groupVal l = byteOf l.reverse := by
  intro l
  induction l with
  | nil => rfl
  | cons b l ih =>
    rw [groupVal_cons, ih, List.reverse_cons, byteOf_append]
    simp [Nat.add_comm]

theorem bitsLSB_zero (v : Nat) : bitsLSB 0 v = [] := rfl

theorem bitsLSB_succ (k v : Nat) :
    bitsLSB (k + 1) v = ((v &&& 1) == 1) :: bitsLSB k (v / 2) := by
  simp only [bitsLSB, List.range_succ_eq_map, List.map_cons, List.map_map]
  refine congrArg₂ List.cons (by norm_num) ?_
  apply List.map_congr_left
  intro i _
  simp only [Function.comp_apply]
  rw [Nat.shiftRight_succ_inside]

theorem bitsLSB_length (k v : Nat) : (bitsLSB k v).length = k := by
  simp [bitsLSB]

theorem and_one_toNat (v : Nat) : ((v &&& 1) == 1).toNat = v % 2 := by
  rw [Nat.and_one_is_mod]
  rcases Nat.mod_two_eq_zero_or_one v with h | h <;> simp [h]

theorem byteOf_bitsLSB : ∀ (k v : Nat), v < 2 ^ k → byteOf (bitsLSB k v) = v := by
  intro k
  induction k with
  | zero => intro v hv; interval_cases v; rfl
  | succ m ih =>
    intro v hv
    rw [bitsLSB_succ, byteOf_cons, and_one_toNat]
    have hdiv : v / 2 < 2 ^ m := by
      have : v < 2 ^ m * 2 := by rw [← pow_succ]; exact hv
      omega
    rw [ih (v / 2) hdiv]
    omega

theorem bitsLSB_byteOf : ∀ (l : List Bool), bitsLSB l.length (byteOf l) = l := by
  intro l
  induction l with
  | nil => rfl
  | cons b l ih =>
    rw [List.length_cons, bitsLSB_succ, byteOf_cons]
    have hb : b.toNat ≤ 1 := Bool.toNat_le b
    have h1 : (b.toNat + 2 * byteOf l) &&& 1 = b.toNat := by
      rw [Nat.and_one_is_mod]
      omega
    have h2 : (b.toNat + 2 * byteOf l) / 2 = byteOf l := by omega
    rw [h1, h2, ih]
    cases b <;> rfl

theorem slotBits_eq_reverse (k v : Nat) : slotBits k v = (bitsLSB k v).reverse := by
  simp only [slotBits, bitsLSB, List.map_reverse]

theorem slotBits_length (k v : Nat) : (slotBits k v).length = k := by
  simp [slotBits]

theorem slotBits_groupVal (k : Nat) (l : List Bool) (hl : l.length = k) :
    slotBits k (groupVal l) = l := by
  subst hl
  rw [slotBits_eq_reverse, groupVal_eq_byteOf_reverse]
  have : l.length = l.reverse.length := (List.length_reverse l).symm
  rw [this, bitsLSB_byteOf, List.reverse_reverse]

theorem lor_shiftLeft_add (k a g : Nat) (hg : g < 2 ^ k) :
    (a <<< k) ||| g = a * 2 ^ k + g := by
  apply Nat.eq_of_testBit_eq
  intro i
  rw [Nat.testBit_lor, Nat.testBit_shiftLeft]
  rw [show a * 2 ^ k + g = 2 ^ k * a + g by ring]
  rw [Nat.testBit_mul_pow_two_add a hg i]
  by_cases hik : i < k
  · have : ¬ i ≥ k := by omega
    simp [this, hik]
  · have hge : i ≥ k := by omega
    have hgsmall : g < 2 ^ i := lt_of_lt_of_le hg (Nat.pow_le_pow_right (by omega) hge)
    simp [hge, hik, Nat.testBit_lt_two_pow hgsmall]

theorem clearLow_eq (k v : Nat) : clearLow k v = v / 2 ^ k * 2 ^ k := by
  rw [clearLow, Nat.shiftRight_eq_div_pow, Nat.shiftLeft_eq]

theorem write_then_mask (k v g : Nat) (hg : g < 2 ^ k) :
    (clearLow k v ||| g) &&& (2 ^ k - 1) = g := by
  rw [clearLow, lor_shiftLeft_add k _ g hg, Nat.and_pow_two_sub_one_eq_mod]
  rw [show (v >>> k) * 2 ^ k + g = g + (v >>> k) * 2 ^ k by ring]
  rw [Nat.add_mul_mod_self_right, Nat.mod_eq_of_lt hg]

theorem write_preserves_high (k v g : Nat) (hg : g < 2 ^ k) :
    (clearLow k v ||| g) >>> k = v >>> k := by
  rw [clearLow, lor_shiftLeft_add k _ g hg]
  rw [show (v >>> k) * 2 ^ k + g = g + (v >>> k) * 2 ^ k by ring]
  rw [Nat.shiftRight_eq_div_pow (g + (v >>> k) * 2 ^ k) k]
  rw [Nat.add_mul_div_right _ _ (Nat.pos_pow_of_pos k (by omega)), Nat.div_eq_of_lt hg,
    Nat.zero_add]

theorem slot_write_read (k v : Nat) (l : List Bool) (hl : l.length = k) :
    slotBits k ((clearLow k v ||| groupVal l) &&& (2 ^ k - 1)) = l := by
  have hg : groupVal l < 2 ^ k := hl ▸ groupVal_lt l
  rw [write_then_mask k v _ hg, slotBits_groupVal k l hl]

theorem packGo_nil (fuel : Nat) : packGo fuel [] = [] := by
  cases fuel <;> rfl

theorem packGo_eq : ∀ (f1 : Nat) (bits : List Bool) (f2 : Nat), bits.length ≤ f1 →
    bits.length ≤ f2 → packGo f1 bits = packGo f2 bits := by
  intro f1
  induction f1 with
  | zero =>
    intro bits f2 hb _
    have : bits = [] := List.length_eq_zero.mp (by omega)
    subst this
    rw [packGo_nil, packGo_nil]
  | succ g ih =>
    intro bits f2 hb hb2
    match bits with
    | [] => rw [packGo_nil, packGo_nil]
    | b :: rest =>
      match f2 with
      | 0 => simp at hb2
      | g2 + 1 =>
        show byteOf _ :: packGo g ((b :: rest).drop 8) =
          byteOf _ :: packGo g2 ((b :: rest).drop 8)
        refine congrArg₂ List.cons rfl ?_
        apply ih
        · simp only [List.length_drop, List.length_cons]
          simp only [List.length_cons] at hb
          omega
        · simp only [List.length_drop, List.length_cons]
          simp only [List.length_cons] at hb2
          omega

theorem pack_cons_eq (b : Bool) (l : List Bool) :
    pack_bits_lsb (b :: l) =
      byteOf ((b :: l).take 8) :: pack_bits_lsb ((b :: l).drop 8) := by
  show byteOf ((b :: l).take 8) :: packGo l.length ((b :: l).drop 8) = _
  refine congrArg₂ List.cons rfl ?_
  exact packGo_eq l.length _ _ (by simp only [List.length_drop, List.length_cons]; omega) le_rfl

theorem pack_append8 (bits1 rest : List Bool) (h1 : bits1.length = 8) :
    pack_bits_lsb (bits1 ++ rest) = byteOf bits1 :: pack_bits_lsb rest := by
  obtain ⟨b, bits2, rfl⟩ : ∃ b bits2, bits1 = b :: bits2 := by
    cases bits1 with
    | nil => simp at h1
    | cons b bs => exact ⟨b, bs, rfl⟩
  rw [show (b :: bits2) ++ rest = b :: (bits2 ++ rest) from rfl, pack_cons_eq]
  rw [show b :: (bits2 ++ rest) = (b :: bits2) ++ rest from rfl]
  rw [show (8 : Nat) = (b :: bits2).length from h1.symm, List.take_left, List.drop_left]

theorem bitsLSB_eight (a : Nat) :
    (List.range 8).map (fun i => ((a >>> i) &&& 1) == 1) = bitsLSB 8 a := rfl

theorem pack_iter_id : ∀ (data : List Nat), (∀ b ∈ data, b < 256) →
    pack_bits_lsb (iter_bits_lsb data) = data := by
  intro data
  induction data with
  | nil => intro _; rfl
  | cons a rest ih =>
    intro hb
    have ha : a < 256 := hb a (List.mem_cons_self a rest)
    have : iter_bits_lsb (a :: rest) = bitsLSB 8 a ++ iter_bits_lsb rest := by
      simp only [iter_bits_lsb, List.flatMap_cons, bitsLSB]
    rw [this, pack_append8 _ _ (bitsLSB_length 8 a),
      byteOf_bitsLSB 8 a (by norm_num; omega), ih (fun b hbm => hb b (List.mem_cons_of_mem a hbm))]

/-- Counterexample for claim C4: the code's `k`-bit group packing
(`val = (val << 1) | next(bits)`, image_stego.py lines 151-153) is not
LSB-first within the group.  On the two-bit group `[1, 0]` the code packs the
value 2 (first bit at the top), while the spec's LSB-first packing yields 1. -/
theorem bit_order_within_group_counterexample :
    groupVal [true, false] ≠ spec_group_val_lsb [true, false] := by decide

/-- Claim C4 as amended: the bit ordering is LSB-first across the flattened
byte stream but MSB-first within each `k`-bit group (the first stream bit of
a group is placed at the group's highest-order bit), and this convention is
identical on the encode and decode paths: reading a written slot recovers the
written group bits in order, and packing the decoder's byte stream inverts
the encoder's byte flattening. -/
theorem bit_order_conventions (k v : Nat) (bits : List Bool) (data : List Nat)
    (hl : bits.length = k) (hdata : ∀ b ∈ data, b < 256) :
    slotBits k ((clearLow k v ||| groupVal bits) &&& (2 ^ k - 1)) = bits ∧
    (∀ b tail, groupVal (b :: tail) = b.toNat * 2 ^ tail.length + groupVal tail) ∧
    pack_bits_lsb (iter_bits_lsb data) = data :=
  ⟨slot_write_read k v bits hl, groupVal_cons, pack_iter_id data hdata⟩

/-- Witness for the amended C4 at `k = 2`, slot value 255, group `[1, 0]`,
byte stream `"AC"`. -/
theorem bit_order_conventions_witness :
    slotBits 2 ((clearLow 2 255 ||| groupVal [true, false]) &&& (2 ^ 2 - 1)) = [true, false] ∧
    (∀ b tail, groupVal (b :: tail) = b.toNat * 2 ^ tail.length + groupVal tail) ∧
    pack_bits_lsb (iter_bits_lsb [65, 67]) = [65, 67] :=
  bit_order_conventions 2 255 [true, false] [65, 67] (by decide) (by decide)

/-! ### Lemmas about the embedding loop and the decoder's bit stream -/

theorem embed_length (k : Nat) : ∀ (ps : List Nat) (bits : List Bool) (c : List Nat),
    (embed k ps bits c).length = c.length := by
  intro ps
  induction ps with
  | nil => intro bits c; rfl
  | cons idx rest ih =>
    intro bits c
    by_cases hshort : bits.length < k
    · simp [embed, hshort]
    · simp only [embed, if_neg hshort]
      rw [ih, List.length_set]

theorem getD_embed_not_mem (k : Nat) : ∀ (ps : List Nat) (bits : List Bool) (c : List Nat)
    (j : Nat), j ∉ ps → (embed k ps bits c).getD j 0 = c.getD j 0 := by
  intro ps
  induction ps with
  | nil => intro bits c j _; rfl
  | cons idx rest ih =>
    intro bits c j hj
    have hj1 : j ≠ idx := fun hEq => hj (hEq ▸ List.mem_cons_self idx rest)
    have hj2 : j ∉ rest := fun hm => hj (List.mem_cons_of_mem idx hm)
    by_cases hshort : bits.length < k
    · simp [embed, hshort]
    · simp only [embed, if_neg hshort]
      rw [ih _ _ j hj2, List.getD_eq_getElem?_getD, List.getD_eq_getElem?_getD,
        List.getElem?_set_ne (Ne.symm hj1), ← List.getD_eq_getElem?_getD]

theorem readStream_cons (k : Nat) (idx : Nat) (rest data : List Nat) :
    readStream k (idx :: rest) data =
      slotBits k (data.getD idx 0 &&& (2 ^ k - 1)) ++ readStream k rest data := by
  simp [readStream]

theorem readStream_append (k : Nat) (l1 l2 data : List Nat) :
    readStream k (l1 ++ l2) data = readStream k l1 data ++ readStream k l2 data := by
  simp [readStream, List.flatMap_append]

theorem readStream_congr (k : Nat) : ∀ (l d1 d2 : List Nat),
    (∀ i ∈ l, d1.getD i 0 = d2.getD i 0) → readStream k l d1 = readStream k l d2 := by
  intro l
  induction l with
  | nil => intro d1 d2 _; rfl
  | cons idx rest ih =>
    intro d1 d2 hEq
    rw [readStream_cons, readStream_cons, hEq idx (List.mem_cons_self idx rest),
      ih d1 d2 (fun i hi => hEq i (List.mem_cons_of_mem idx hi))]

theorem readStream_embed_outside (k : Nat) (ps l : List Nat) (bits : List Bool)
    (c : List Nat) (hdisj : ∀ i ∈ l, i ∉ ps) :
    readStream k l (embed k ps bits c) = readStream k l c :=
  readStream_congr k l _ c (fun i hi => getD_embed_not_mem k ps bits c i (hdisj i hi))

theorem readStream_set_outside (k : Nat) (l : List Nat) (c : List Nat) (idx v : Nat)
    (hidx : idx ∉ l) : readStream k l (c.set idx v) = readStream k l c :=
  readStream_congr k l _ c (fun i hi => by
    rw [List.getD_eq_getElem?_getD, List.getD_eq_getElem?_getD,
      List.getElem?_set_ne (fun hEq => hidx (by rw [hEq]; exact hi))])

/-- Main read-back theorem: reading the stream over the same position list
that was just embedded yields the embedded bits for every complete `k`-bit
group, and the original carrier's bits from the first incompletely-filled
slot onwards (the encoder drops a final partial group). -/
theorem readStream_embed (k : Nat) (hk : 0 < k) :
    ∀ (ps : List Nat) (bits : List Bool) (c : List Nat),
      ps.Nodup → (∀ i ∈ ps, i < c.length) → bits.length ≤ k * ps.length →
      readStream k ps (embed k ps bits c) =
        bits.take (k * (bits.length / k)) ++ readStream k (ps.drop (bits.length / k)) c := by
  intro ps
  induction ps with
  | nil =>
    intro bits c _ _ hlen
    simp only [List.length_nil, Nat.mul_zero, Nat.le_zero] at hlen
    have hbits : bits = [] := List.length_eq_zero.mp hlen
    subst hbits
    simp [readStream, embed]
  | cons idx rest ih =>
    intro bits c hnd hbound hlen
    by_cases hshort : bits.length < k
    · have hq : bits.length / k = 0 := Nat.div_eq_of_lt hshort
      have hemb : embed k (idx :: rest) bits c = c := by
        simp [embed, hshort]
      rw [hemb, hq, Nat.mul_zero, List.take_zero, List.drop_zero, List.nil_append]
    · push_neg at hshort
      have hidx : idx ∉ rest := (List.nodup_cons.mp hnd).1
      have hnd2 : rest.Nodup := (List.nodup_cons.mp hnd).2
      have hidxlt : idx < c.length := hbound idx (List.mem_cons_self idx rest)
      have hglen : (bits.take k).length = k := by
        rw [List.length_take]
        omega
      have hemb : embed k (idx :: rest) bits c =
          embed k rest (bits.drop k)
            (c.set idx (clearLow k (c.getD idx 0) ||| groupVal (bits.take k))) := by
        simp [embed, Nat.not_lt_of_ge hshort]
      set w := clearLow k (c.getD idx 0) ||| groupVal (bits.take k) with hw
      set c2 := c.set idx w with hc2
      have hbound2 : ∀ i ∈ rest, i < c2.length := by
        intro i hi
        rw [hc2, List.length_set]
        exact hbound i (List.mem_cons_of_mem idx hi)
      have hlen2 : (bits.drop k).length ≤ k * rest.length := by
        rw [List.length_drop]
        rw [List.length_cons, Nat.mul_succ] at hlen
        omega
      have hreadrest := ih (bits.drop k) c2 hnd2 hbound2 hlen2
      have hGetIdx : (embed k rest (bits.drop k) c2).getD idx 0 = w := by
        rw [getD_embed_not_mem k rest _ c2 idx hidx, hc2, List.getD_eq_getElem?_getD,
          List.getElem?_set_self hidxlt]
        rfl
      have hslot : slotBits k (w &&& (2 ^ k - 1)) = bits.take k := by
        rw [hw]
        exact slot_write_read k (c.getD idx 0) (bits.take k) hglen
      set q2 := (bits.drop k).length / k with hq2
      have hdropc2 : readStream k (rest.drop q2) c2 = readStream k (rest.drop q2) c := by
        apply readStream_set_outside
        exact fun hm => hidx (List.mem_of_mem_drop hm)
      have hq : bits.length / k = q2 + 1 := by
        rw [hq2, List.length_drop]
        exact Nat.div_eq_sub_div hk hshort
      calc readStream k (idx :: rest) (embed k (idx :: rest) bits c)
          = slotBits k ((embed k rest (bits.drop k) c2).getD idx 0 &&& (2 ^ k - 1)) ++
              readStream k rest (embed k rest (bits.drop k) c2) := by
            rw [hemb, readStream_cons]
        _ = bits.take k ++ ((bits.drop k).take (k * q2) ++ readStream k (rest.drop q2) c2) := by
            rw [hGetIdx, hslot, hreadrest]
        _ = bits.take k ++ (bits.drop k).take (k * q2) ++ readStream k (rest.drop q2) c := by
            rw [hdropc2, List.append_assoc]
        _ = bits.take (k * (bits.length / k)) ++
              readStream k ((idx :: rest).drop (bits.length / k)) c := by
            rw [hq, List.drop_succ_cons, ← List.take_add]
            rw [show k + k * q2 = k * (q2 + 1) by ring]

theorem embed_getD_shiftRight (k : Nat) : ∀ (ps : List Nat) (bits : List Bool)
    (c : List Nat) (i : Nat), (embed k ps bits c).getD i 0 >>> k = c.getD i 0 >>> k := by
  intro ps
  induction ps with
  | nil => intro bits c i; rfl
  | cons idx rest ih =>
    intro bits c i
    by_cases hshort : bits.length < k
    · simp [embed, hshort]
    · push_neg at hshort
      have hglen : (bits.take k).length = k := by
        rw [List.length_take]; omega
      have hemb : embed k (idx :: rest) bits c =
          embed k rest (bits.drop k)
            (c.set idx (clearLow k (c.getD idx 0) ||| groupVal (bits.take k))) := by
        simp [embed, Nat.not_lt_of_ge hshort]
      rw [hemb, ih]
      by_cases hi : i = idx
      · subst hi
        by_cases hlt : i < c.length
        · rw [List.getD_eq_getElem?_getD, List.getElem?_set_self hlt]
          show (clearLow k (c.getD i 0) ||| groupVal (bits.take k)) >>> k = _
          have hgv : groupVal (bits.take k) < 2 ^ k := by
            have hlt2 := groupVal_lt (bits.take k)
            rwa [hglen] at hlt2
          exact write_preserves_high k _ _ hgv
        · rw [List.set_eq_of_length_le (by omega)]
      · rw [List.getD_eq_getElem?_getD, List.getElem?_set_ne (Ne.symm hi),
          ← List.getD_eq_getElem?_getD]

/-! ### Lemmas about `_scattered_positions` and the encode/decode claim theorems -/

theorem mem_scattered_positions (shuffle : Nat → List Nat → List Nat)
    (hshuffle : ∀ s l, (shuffle s l).Perm l) (total start : Nat) (key : List Nat)
    (w h : Nat) (x : Nat) (hx : x ∈ _scattered_positions shuffle total start key w h) :
    ∃ p, start / 3 ≤ p ∧ p < w * h ∧ 3 * p ≤ x ∧ x < 3 * p + 3 := by
  simp only [_scattered_positions] at hx
  by_cases h0 : total = 0
  · simp [h0] at hx
  · rw [if_neg h0] at hx
    by_cases h1 : w * h = 0
    · rw [if_pos h1] at hx; simp at hx
    · rw [if_neg h1] at hx
      by_cases h2 : w * h ≤ start / 3
      · rw [if_pos h2] at hx; simp at hx
      · rw [if_neg h2] at hx
        have hx2 := List.mem_of_mem_take hx
        obtain ⟨p, hp, hxp⟩ := List.mem_flatMap.mp hx2
        have hp2 : p ∈ List.range' (start / 3) (w * h - start / 3) :=
          ((hshuffle _ _).mem_iff).mp hp
        obtain ⟨hple, hplt⟩ := List.mem_range'_1.mp hp2
        refine ⟨p, hple, by omega, ?_, ?_⟩ <;>
          (simp only [List.mem_cons, List.not_mem_nil, or_false] at hxp; omega)

theorem scattered_positions_empty (shuffle : Nat → List Nat → List Nat)
    (total start : Nat) (key : List Nat) (w h : Nat) (hstart : 3 * (w * h) ≤ start) :
    _scattered_positions shuffle total start key w h = [] := by
  simp only [_scattered_positions]
  by_cases h0 : total = 0
  · simp [h0]
  · rw [if_neg h0]
    by_cases h1 : w * h = 0
    · rw [if_pos h1]
    · rw [if_neg h1]
      have h2 : w * h ≤ start / 3 := (Nat.le_div_iff_mul_le (by omega)).mpr (by omega)
      rw [if_pos h2]

/-- Claim C8: the scattered suffix generator never touches a slot before the
start offset (for the multiple-of-3 byte offsets the encoder computes from a
pixel start), a start at or past the carrier end yields an empty eligible
set, and in that case any embed request fails immediately with the
insufficient-capacity error (reporting available capacity 0). -/
theorem scattered_no_wraparound (shuffle : Nat → List Nat → List Nat)
    (hshuffle : ∀ s l, (shuffle s l).Perm l) (total start : Nat) (key : List Nat)
    (w h : Nat) :
    (3 ∣ start → ∀ x ∈ _scattered_positions shuffle total start key w h, start ≤ x) ∧
    (3 * (w * h) ≤ start → _scattered_positions shuffle total start key w h = []) ∧
    (∀ (carrier pp payload : List Nat) (k : Nat), 1 ≤ k → k ≤ 8 → 3 * (w * h) ≤ start →
      encode_image_at shuffle w h carrier pp payload key k start =
        .err (.payloadTooLarge (encode_blob pp payload key).length 0)) := by
  refine ⟨?_, fun hs => scattered_positions_empty shuffle total start key w h hs, ?_⟩
  · intro hdvd x hx
    obtain ⟨p, hple, _, hlow, _⟩ :=
      mem_scattered_positions shuffle hshuffle total start key w h x hx
    have h3 : 3 * (start / 3) = start := Nat.mul_div_cancel' hdvd
    omega
  · intro carrier pp payload k hk1 hk2 hstart
    have hkv : ¬¬(1 ≤ k ∧ k ≤ 8) := not_not_intro ⟨hk1, hk2⟩
    have hpos : _scattered_positions shuffle carrier.length start key w h = [] :=
      scattered_positions_empty shuffle carrier.length start key w h hstart
    have hblob : 4 ≤ (encode_blob pp payload key).length := by
      simp only [encode_blob, MAGIC, List.length_append, List.length_cons, List.length_nil]
      omega
    simp only [encode_image_at, if_neg hkv, hpos]
    have hcn : carriers_needed k (encode_blob pp payload key) > 0 := by
      have : 1 ≤ ((encode_blob pp payload key).length * 8 + k - 1) / k := by
        rw [Nat.le_div_iff_mul_le (by omega)]
        omega
      simpa [carriers_needed] using this
    rw [if_pos (by simpa using hcn)]
    simp

/-- Witness for C8 at `shuffle = id`, `w = h = 1`, `start = 3` (at the end of
the 3-byte carrier), key `"7"`, `k = 1`. -/
theorem scattered_no_wraparound_witness :
    ((3 : Nat) ∣ 3 → ∀ x ∈ _scattered_positions (fun _ l => l) 3 3 [55] 1 1, 3 ≤ x) ∧
    (3 * (1 * 1) ≤ 3 → _scattered_positions (fun _ l => l) 3 3 [55] 1 1 = []) ∧
    (∀ (carrier pp payload : List Nat) (k : Nat), 1 ≤ k → k ≤ 8 → 3 * (1 * 1) ≤ 3 →
      encode_image_at (fun _ l => l) 1 1 carrier pp payload [55] k 3 =
        .err (.payloadTooLarge (encode_blob pp payload [55]).length 0)) :=
  scattered_no_wraparound (fun _ l => l) (fun _ l => List.Perm.refl l) 3 3 [55] 1 1

/-- Claim C2: for a valid bit depth, `encode_image` succeeds iff the number of
`k`-bit slots needed for the frame is at most the number of eligible slots
from the start location (so the boundary `slots_needed = available` succeeds),
and on failure it raises the payload-too-large error reporting the required
capacity (the frame length in bytes) and the available capacity in bytes. -/
theorem encode_capacity_exact (shuffle : Nat → List Nat → List Nat) (w h : Nat)
    (carrier pp payload key : List Nat) (k start : Nat) (hk1 : 1 ≤ k) (hk2 : k ≤ 8) :
    ((encode_image_at shuffle w h carrier pp payload key k start).isOk = true ↔
      carriers_needed k (encode_blob pp payload key) ≤
        (_scattered_positions shuffle carrier.length start key w h).length) ∧
    ((_scattered_positions shuffle carrier.length start key w h).length <
        carriers_needed k (encode_blob pp payload key) →
      encode_image_at shuffle w h carrier pp payload key k start =
        .err (.payloadTooLarge (encode_blob pp payload key).length
          ((_scattered_positions shuffle carrier.length start key w h).length * k / 8))) := by
  have hkv : ¬¬(1 ≤ k ∧ k ≤ 8) := not_not_intro ⟨hk1, hk2⟩
  constructor
  · constructor
    · intro hok
      by_contra hcap
      push_neg at hcap
      have herr : encode_image_at shuffle w h carrier pp payload key k start =
          .err (.payloadTooLarge (encode_blob pp payload key).length
            ((_scattered_positions shuffle carrier.length start key w h).length * k / 8)) := by
        simp only [encode_image_at, if_neg hkv]
        rw [if_pos (by omega)]
      rw [herr] at hok
      simp [EncodeResult.isOk] at hok
    · intro hle
      simp only [encode_image_at, if_neg hkv]
      rw [if_neg (by omega)]
      rfl
  · intro hlt
    simp only [encode_image_at, if_neg hkv]
    rw [if_pos (by omega)]

/-- Witness for C2 at `shuffle = id`, a 7×7 all-zero carrier, key `"7"`,
`k = 8`, a 1-byte payload named `"z"`. -/
theorem encode_capacity_exact_witness :
    ((encode_image_at (fun _ l => l) 7 7 (List.replicate 147 0) [122] [1] [55] 8 0).isOk = true ↔
      carriers_needed 8 (encode_blob [122] [1] [55]) ≤
        (_scattered_positions (fun _ l => l) (List.replicate 147 (0 : Nat)).length 0 [55] 7 7).length) ∧
    ((_scattered_positions (fun _ l => l) (List.replicate 147 (0 : Nat)).length 0 [55] 7 7).length <
        carriers_needed 8 (encode_blob [122] [1] [55]) →
      encode_image_at (fun _ l => l) 7 7 (List.replicate 147 0) [122] [1] [55] 8 0 =
        .err (.payloadTooLarge (encode_blob [122] [1] [55]).length
          ((_scattered_positions (fun _ l => l) (List.replicate 147 (0 : Nat)).length 0 [55] 7 7).length * 8 / 8))) :=
  encode_capacity_exact (fun _ l => l) 7 7 (List.replicate 147 0) [122] [1] [55] 8 0
    (by decide) (by decide)

/-- Claim C9: a successful encode returns a carrier of exactly the input
length, every slot outside the generated position sequence (the
`carriers_needed` prefix of the scattered positions) keeps its original
value, and every slot keeps all bits above the `k` low-order bits unchanged. -/
theorem encode_frame_effect (shuffle : Nat → List Nat → List Nat) (w h : Nat)
    (carrier pp payload key : List Nat) (k start : Nat) (c1 : List Nat)
    (henc : encode_image_at shuffle w h carrier pp payload key k start = .ok c1) :
    c1.length = carrier.length ∧
    (∀ i, i ∉ (_scattered_positions shuffle carrier.length start key w h).take
        (carriers_needed k (encode_blob pp payload key)) →
      c1.getD i 0 = carrier.getD i 0) ∧
    (∀ i, c1.getD i 0 >>> k = carrier.getD i 0 >>> k) := by
  by_cases hkv : 1 ≤ k ∧ k ≤ 8
  · simp only [encode_image_at, if_neg (not_not_intro hkv)] at henc
    by_cases hcap : carriers_needed k (encode_blob pp payload key) >
        (_scattered_positions shuffle carrier.length start key w h).length
    · rw [if_pos hcap] at henc
      exact absurd henc (by simp)
    · rw [if_neg hcap] at henc
      injection henc with hc1
      subst hc1
      refine ⟨embed_length k _ _ _, ?_, ?_⟩
      · intro i hi
        exact getD_embed_not_mem k _ _ _ i hi
      · intro i
        exact embed_getD_shiftRight k _ _ _ i
  · simp [encode_image_at, hkv] at henc

/-- Witness for C9: the concrete successful encode of the C2 witness instance. -/
theorem encode_frame_effect_witness :
    ([130, 194, 234, 140, 158, 64, 150, 217, 128, 0, 128, 0, 0, 0, 94, 128] ++
        List.replicate 131 0 : List Nat).length = (List.replicate 147 (0 : Nat)).length ∧
    (∀ i, i ∉ (_scattered_positions (fun _ l => l) (List.replicate 147 (0 : Nat)).length 0 [55] 7 7).take
        (carriers_needed 8 (encode_blob [122] [1] [55])) →
      ([130, 194, 234, 140, 158, 64, 150, 217, 128, 0, 128, 0, 0, 0, 94, 128] ++
        List.replicate 131 0 : List Nat).getD i 0 = (List.replicate 147 (0 : Nat)).getD i 0) ∧
    (∀ i, ([130, 194, 234, 140, 158, 64, 150, 217, 128, 0, 128, 0, 0, 0, 94, 128] ++
        List.replicate 131 0 : List Nat).getD i 0 >>> 8 =
      (List.replicate 147 (0 : Nat)).getD i 0 >>> 8) :=
  encode_frame_effect (fun _ l => l) 7 7 (List.replicate 147 0) [122] [1] [55] 8 0
    ([130, 194, 234, 140, 158, 64, 150, 217, 128, 0, 128, 0, 0, 0, 94, 128] ++
      List.replicate 131 0) (by decide)

/-! ### Key-derivation case sensitivity (C5) -/

/-- Counterexample for claim C5: the key signature embedded in the frame
(`hashlib.sha256(str(key).encode()).digest()[:4]`, image_stego.py line 127)
hashes the raw key string without case normalization, so the alphabetic key
`"key"` and its upper-case form `"KEY"` produce different signatures. -/
theorem key_sig_not_case_insensitive :
    key_sig [107, 101, 121] ≠ key_sig [75, 69, 89] := by decide

/-- Claim C5 as amended: `key_to_int` (and hence the derived stride) factors
through the normalized (trimmed, lower-cased) key, so any two keys with the
same normalization derive identical seed and stride; but the key signature
hashes the raw key and is case sensitive, so encode with one casing and
decode with another do not succeed together. -/
theorem key_derivation_case_insensitivity (k1 k2 : List Nat)
    (hnorm : _normalize_key_str k1 = _normalize_key_str k2) :
    key_to_int k1 = key_to_int k2 ∧
    (∀ total, _stride_for total (key_to_int k1) = _stride_for total (key_to_int k2)) ∧
    key_sig [107, 101, 121] ≠ key_sig [75, 69, 89] := by
  have h1 : key_to_int k1 = key_to_int k2 := by
    unfold key_to_int
    rw [hnorm]
  exact ⟨h1, fun total => by rw [h1], by decide⟩

/-- Witness for the amended C5 at `k1 = "KeY"`, `k2 = "key"`. -/
theorem key_derivation_case_insensitivity_witness :
    key_to_int [75, 101, 89] = key_to_int [107, 101, 121] ∧
    (∀ total, _stride_for total (key_to_int [75, 101, 89]) =
      _stride_for total (key_to_int [107, 101, 121])) ∧
    key_sig [107, 101, 121] ≠ key_sig [75, 69, 89] :=
  key_derivation_case_insensitivity [75, 101, 89] [107, 101, 121] (by decide)

/-! ### The decoder's header bounds check (C7) -/

theorem packGo_lt : ∀ (fuel : Nat) (bits : List Bool), ∀ b ∈ packGo fuel bits, b < 256 := by
  intro fuel
  induction fuel with
  | zero => intro bits b hb; simp [packGo] at hb
  | succ f ih =>
    intro bits b hb
    match bits with
    | [] => simp [packGo] at hb
    | x :: rest =>
      rw [show packGo (f + 1) (x :: rest) =
          byteOf ((x :: rest).take 8) :: packGo f ((x :: rest).drop 8) from rfl] at hb
      rcases List.mem_cons.mp hb with hEq | hmem
      · subst hEq
        have h1 := byteOf_lt ((x :: rest).take 8)
        have h2 : ((x :: rest).take 8).length ≤ 8 := by
          simp [List.length_take]
        calc byteOf ((x :: rest).take 8) < 2 ^ ((x :: rest).take 8).length := h1
          _ ≤ 2 ^ 8 := Nat.pow_le_pow_right (by omega) h2
          _ = 256 := by norm_num
      · exact ih _ b hmem

theorem pack_bits_lsb_lt (bits : List Bool) : ∀ b ∈ pack_bits_lsb bits, b < 256 :=
  packGo_lt bits.length bits

theorem fromBytesLE_le_two : ∀ (l : List Nat), l.length ≤ 2 → (∀ b ∈ l, b < 256) →
    fromBytesLE l ≤ 65535 := by
  intro l
  match l with
  | [] => intro _ _; simp [fromBytesLE]
  | [a] =>
    intro _ hb
    have ha := hb a (by simp)
    simp only [fromBytesLE, List.foldr_cons, List.foldr_nil]
    omega
  | [a, b] =>
    intro _ hb
    have ha := hb a (by simp)
    have hbb := hb b (by simp)
    simp only [fromBytesLE, List.foldr_cons, List.foldr_nil]
    omega
  | a :: b :: c :: _ => intro hl _; simp at hl

theorem parseStream_ne_corruptHeader (key : List Nat) (stream : List Bool) :
    parseStream key stream ≠ .err .corruptHeader := by
  have hname : fromBytesLE ((pack_bits_lsb (((stream.drop 32).drop 32).take 48)).take 2) ≤
      65535 := by
    apply fromBytesLE_le_two
    · simp [List.length_take]
    · intro b hb
      exact pack_bits_lsb_lt _ b (List.mem_of_mem_take hb)
  simp only [parseStream]
  repeat' split
  all_goals first
    | decide
    | simp

/-- Claim C7 (evidence for the code bug): the image decoder can never fail
with the corrupt-header error — its only header check, `0 ≤ name_len ≤ 65535`
on a value parsed from 2 bytes (image_stego.py lines 226-227), is vacuously
true, and no bounds check of NAME_LEN/PAYLOAD_LEN against the remaining
carrier capacity exists; an oversized header instead exhausts the position
stream while reading (a runtime error), contrary to the claimed fail-fast
`CorruptHeader`. -/
theorem decode_image_never_corruptHeader (shuffle : Nat → List Nat → List Nat)
    (w h : Nat) (data key : List Nat) (k start : Nat) :
    decode_image_at shuffle w h data key k start ≠ .err .corruptHeader := by
  unfold decode_image_at
  split
  · decide
  · exact parseStream_ne_corruptHeader key _

/-- Witness: the corrupt-header error is unreachable also at a concrete
decode call. -/
theorem decode_image_never_corruptHeader_witness :
    decode_image_at (fun _ l => l) 1 1 [0, 0, 0] [55] 1 0 ≠ .err .corruptHeader :=
  decode_image_never_corruptHeader (fun _ l => l) 1 1 [0, 0, 0] [55] 1 0

/-! ### The round-trip defect (C1) -/

theorem flatMap_triple_length : ∀ (l : List Nat),
    (l.flatMap (fun p => [3 * p, 3 * p + 1, 3 * p + 2])).length = 3 * l.length := by
  intro l
  induction l with
  | nil => rfl
  | cons p rest ih =>
    rw [List.flatMap_cons, List.length_append, ih, List.length_cons]
    simp only [List.length_cons, List.length_nil]
    ring

theorem flatMap_triple_nodup : ∀ (l : List Nat), l.Nodup →
    (l.flatMap (fun p => [3 * p, 3 * p + 1, 3 * p + 2])).Nodup := by
  intro l
  induction l with
  | nil => intro _; exact List.nodup_nil
  | cons p rest ih =>
    intro hnd
    obtain ⟨hp, hrest⟩ := List.nodup_cons.mp hnd
    rw [List.flatMap_cons]
    rw [List.nodup_append]
    refine ⟨by simp, ih hrest, ?_⟩
    intro x hx1 hx2
    obtain ⟨q, hq, hxq⟩ := List.mem_flatMap.mp hx2
    simp only [List.mem_cons, List.not_mem_nil, or_false] at hx1 hxq
    have hpq : p ≠ q := fun hEq => hp (hEq ▸ hq)
    omega

theorem flatMap_triple_lt (m : Nat) : ∀ (l : List Nat), (∀ p ∈ l, p < m) →
    ∀ x ∈ l.flatMap (fun p => [3 * p, 3 * p + 1, 3 * p + 2]), x < 3 * m := by
  intro l hl x hx
  obtain ⟨p, hp, hxp⟩ := List.mem_flatMap.mp hx
  have := hl p hp
  simp only [List.mem_cons, List.not_mem_nil, or_false] at hxp
  omega

theorem readStream_replicate_255 : ∀ (l : List Nat) (n : Nat), (∀ i ∈ l, i < n) →
    readStream 3 l (List.replicate n 255) = List.replicate (3 * l.length) true := by
  intro l
  induction l with
  | nil => intro n _; rfl
  | cons idx rest ih =>
    intro n hb
    rw [readStream_cons]
    have hgd : (List.replicate n (255 : Nat)).getD idx 0 = 255 := by
      rw [List.getD_eq_getElem?_getD, List.getElem?_replicate,
        if_pos (hb idx (List.mem_cons_self idx rest))]
      rfl
    rw [hgd, ih n (fun i hi => hb i (List.mem_cons_of_mem idx hi))]
    rw [show slotBits 3 (255 &&& (2 ^ 3 - 1)) = [true, true, true] from by decide]
    rw [List.length_cons, show 3 * (rest.length + 1) = 3 + 3 * rest.length by ring,
      List.replicate_add]
    rfl

/-- Claim C1 (evidence for the code bug): at a concrete in-capacity instance
with `k = 3` — a 5×3 all-`0xFF` carrier, key `"a"`, payload `[0x00]` named
`"z"`, start pixel `(0, 0)` — encode succeeds but, because the encoder's
`StopIteration` handler drops the final `total_bits mod k = 2` frame bits
without writing its 43rd slot, decode (with the same key and parameters, for
any permutation-valued shuffle) returns payload `[0xC0]` and not the original
`[0x00]`: the round trip of the claim fails. -/
theorem image_roundtrip_drops_tail_bits (shuffle : Nat → List Nat → List Nat)
    (hshuffle : ∀ s l, (shuffle s l).Perm l) :
    ∃ c1, encode_image shuffle 5 3 (List.replicate 45 255) [122] [0] [97] 3 0 0 = .ok c1 ∧
      decode_image shuffle 5 3 c1 [97] 3 0 0 = .ok [192] [122] ∧
      ([192] : List Nat) ≠ [0] := by
  have hkv : ¬¬(1 ≤ 3 ∧ 3 ≤ 8) := by decide
  have hcl : (List.replicate 45 (255 : Nat)).length = 45 := by simp
  have hstart0 : startXY 5 3 0 0 = 0 := by decide
  -- the scattered positions at this instance
  have hperm : (shuffle (fromBytesLE ((sha256 (seedBytes 5 3 [97])).take 8))
      (List.range' 0 15)).Perm (List.range' 0 15) := hshuffle _ _
  set shuffled := shuffle (fromBytesLE ((sha256 (seedBytes 5 3 [97])).take 8))
    (List.range' 0 15) with hshf
  have hslen : shuffled.length = 15 := by rw [hperm.length_eq, List.length_range']
  set flat := shuffled.flatMap (fun p => [3 * p, 3 * p + 1, 3 * p + 2]) with hflatdef
  have hflen : flat.length = 45 := by rw [hflatdef, flatMap_triple_length, hslen]
  have hpmem : ∀ p ∈ shuffled, p < 15 := by
    intro p hp
    have := List.mem_range'_1.mp (hperm.mem_iff.mp hp)
    omega
  have hboundflat : ∀ x ∈ flat, x < 45 := by
    intro x hx
    have := flatMap_triple_lt 15 shuffled hpmem x (hflatdef ▸ hx)
    omega
  have hnodup : flat.Nodup :=
    flatMap_triple_nodup shuffled (hperm.nodup_iff.mpr (List.nodup_range' 0 15))
  have hpos_eq0 : _scattered_positions shuffle 45 0 [97] 5 3 =
      ((shuffle (fromBytesLE ((sha256 (seedBytes 5 3 [97])).take 8))
        (List.range' 0 15)).flatMap (fun p => [3 * p, 3 * p + 1, 3 * p + 2])).take 45 := rfl
  have hpos_eq : _scattered_positions shuffle 45 0 [97] 5 3 = flat := by
    rw [hpos_eq0, ← hshf, ← hflatdef]
    exact List.take_of_length_le (le_of_eq hflen)
  -- the encode result
  have hcn : carriers_needed 3 (encode_blob [122] [0] [97]) = 43 := by decide
  set bits := iter_bits_lsb (encode_blob [122] [0] [97]) with hbitsdef
  have hbits : bits.length = 128 := by rw [hbitsdef]; decide
  set c1 := embed 3 (flat.take 43) bits (List.replicate 45 255) with hc1def
  have henc : encode_image shuffle 5 3 (List.replicate 45 255) [122] [0] [97] 3 0 0 =
      .ok c1 := by
    show encode_image_at shuffle 5 3 (List.replicate 45 255) [122] [0] [97] 3
      (startXY 5 3 0 0) = _
    rw [hstart0]
    simp only [encode_image_at, if_neg hkv, hcl, hpos_eq, hcn]
    rw [if_neg (by rw [hflen]; decide)]
  -- facts about the written prefix
  have hnodup43 : (flat.take 43).Nodup := List.Nodup.sublist (List.take_sublist 43 flat) hnodup
  have hlen43 : (flat.take 43).length = 43 := by
    rw [List.length_take, hflen]
    decide
  have hb43 : ∀ i ∈ flat.take 43, i < (List.replicate 45 (255 : Nat)).length := by
    intro i hi
    rw [hcl]
    exact hboundflat i (List.mem_of_mem_take hi)
  have hc1len : c1.length = 45 := by rw [hc1def, embed_length]; exact hcl
  -- the decoder's stream
  have hmain := readStream_embed 3 (by norm_num) (flat.take 43) bits (List.replicate 45 255)
    hnodup43 hb43 (by rw [hbits, hlen43]; norm_num)
  rw [hbits] at hmain
  norm_num at hmain
  -- hmain : readStream 3 (flat.take 43) c1 = bits.take 126 ++ readStream 3 ((flat.take 43).drop 42) (replicate 45 255)
  have hdrop1 : readStream 3 ((flat.take 43).drop 42) (List.replicate 45 255) =
      List.replicate 3 true := by
    rw [readStream_replicate_255 _ 45
      (fun i hi => hboundflat i (List.mem_of_mem_take (List.mem_of_mem_drop hi)))]
    rw [List.length_drop, hlen43]
  rw [hdrop1] at hmain
  have hdisj : ∀ i ∈ flat.drop 43, i ∉ flat.take 43 := by
    intro i hi hmem
    exact List.disjoint_take_drop hnodup (le_refl 43) hmem hi
  have hdrop2 : readStream 3 (flat.drop 43) c1 = List.replicate 6 true := by
    rw [hc1def, readStream_embed_outside 3 (flat.take 43) (flat.drop 43) _ _ hdisj]
    rw [readStream_replicate_255 _ 45 (fun i hi => hboundflat i (List.mem_of_mem_drop hi))]
    rw [List.length_drop, hflen]
  have hstep : readStream 3 flat c1 =
      readStream 3 (flat.take 43) c1 ++ readStream 3 (flat.drop 43) c1 := by
    have happ := readStream_append 3 (flat.take 43) (flat.drop 43) c1
    rw [List.take_append_drop] at happ
    exact happ
  have hstream : readStream 3 flat c1 =
      (bits.take 126 ++ List.replicate 3 true) ++ List.replicate 6 true := by
    rw [hstep, hdrop2, ← hmain]
  have hfinal : parseStream [97]
      ((bits.take 126 ++ List.replicate 3 true) ++ List.replicate 6 true) =
      .ok [192] [122] := by
    rw [hbitsdef]
    decide
  have hdec : decode_image shuffle 5 3 c1 [97] 3 0 0 = .ok [192] [122] := by
    show decode_image_at shuffle 5 3 c1 [97] 3 (startXY 5 3 0 0) = _
    rw [hstart0]
    simp only [decode_image_at, if_neg hkv, hc1len, hpos_eq]
    rw [hstream, hfinal]
  exact ⟨c1, henc, hdec, by decide⟩

/-- Witness for C1 with the identity shuffle. -/
theorem image_roundtrip_drops_tail_bits_witness :
    ∃ c1, encode_image (fun _ l => l) 5 3 (List.replicate 45 255) [122] [0] [97] 3 0 0 =
        .ok c1 ∧
      decode_image (fun _ l => l) 5 3 c1 [97] 3 0 0 = .ok [192] [122] ∧
      ([192] : List Nat) ≠ [0] :=
  image_roundtrip_drops_tail_bits (fun _ l => l) (fun _ l => List.Perm.refl l)

end ACW1
